import Mathlib

/-!
Verification development for the array-primitives layer of the k2 repository
(file `k2/csrc/array_ops_inl.h`).

The C++ code is shallowly embedded as follows.

* Destination buffers are modelled as total functions `Nat → Int` ("memories").
  Each loop nest of the source that stores into a buffer is modelled as the
  list of (address, value) stores it performs, in program order, and the
  buffer after the operation is that list of stores folded over the initial
  (arbitrary, "uninitialized") contents of the fresh allocation.  For the
  parallel backend the threads' stores all target pairwise distinct addresses,
  so folding them in any fixed order is faithful.
* `Array2<T>` views are a structure holding the device of the owning context,
  `Dim0()`, `Dim1()`, `ElemStride0()` and the `Data()` pointer contents
  (a function from offsets relative to the data pointer to element values).
* Element type `T` is embedded as unbounded `Int`: the code is a template over
  `T` and its specification states "sum accumulates in the element type `T`;
  no overflow protection — caller must choose a sufficiently wide type".
  Loop indices and dimensions (nonnegative `int32_t` values) are `Nat`.
  The one place where the source performs an explicit machine-width cast
  (`static_cast<int32_t>` in `RandUniformArray1`) is modelled exactly with a
  two's-complement wrap `% 2^32`, and the `uint64`/`uint32` packing of the
  block-balanced `Append` index map is modelled with explicit `% 2^32` / `/ 2^32`.
* Fallible operations (fatal `K2_CHECK` failures, `K2_LOG(FATAL)`
  "Not implemented") return `Except FatalKind`.
-/

namespace k2

/-- Device kind of an execution context. `IsCompatible` holds for contexts on the
same device (spec: "same physical device/stream domain"). -/
inductive Device where
  | cpu
  | cuda
  deriving DecidableEq

/-- Contexts compatibility (spec section 4.1): same device identity. -/
def IsCompatible (a b : Device) : Bool := decide (a = b)

/-- A destination buffer: contents at each element offset relative to its data pointer. -/
abbrev Mem : Type := Nat → Int

/-- One store into a buffer (`dest[k] = v` in the source). -/
def writeCell {κ : Type} [DecidableEq κ] (m : κ → Int) (k : κ) (v : Int) : κ → Int :=
  fun x => if x = k then v else m x

/-- A sequence of stores, performed in list order (the program order of the
modelled loop nest). -/
def writes {κ : Type} [DecidableEq κ] (ws : List (κ × Int)) (m : κ → Int) : κ → Int :=
  ws.foldl (fun acc p => writeCell acc p.1 p.2) m

/-- The first `n` elements of a buffer, for reading back concrete results. -/
def readOut (m : Mem) (n : Nat) : List Int := (List.range n).map m

/-- An `Array2<T>` view: context device, `Dim0()`, `Dim1()`, `ElemStride0()`
and the contents reachable from the `Data()` pointer. -/
structure Array2 where
  ctx : Device
  dim0 : Nat
  dim1 : Nat
  elemStride0 : Nat
  data : Mem

/-- Fatal outcomes: a failed `K2_CHECK...` precondition, or `K2_LOG(FATAL) << "Not implemented"`. -/
inductive FatalKind where
  | checkFailed
  | notImplemented
  deriving DecidableEq

/-! ### Transpose (source lines 55-90 and 120-151) -/

/-- Block size constant for matrix transpose (source line 55). -/
def kTransTileDim : Nat := 32

/-- Block size constant for matrix transpose (source line 56). -/
def kTransBlockRows : Nat := 8

/-- Modelled from the spec: `NumBlocks` comes from the missing `k2/csrc/utils.h`;
per the spec the grid of tiles "covers the index range", i.e. the least number
of `tileDim`-sized blocks covering `size`. -/
def NumBlocks (size tileDim : Nat) : Nat := (size + tileDim - 1) / tileDim

/-- The loads of `TransposeKernel` (source lines 66-77) for CUDA block
`(bx, gy)`: every thread `(threadIdx.x = tx, threadIdx.y = ty)` runs the loop
`for (i = 0; i < kTransTileDim; i += kTransBlockRows)` (iteration count
`kTransTileDim / kTransBlockRows`, with `i = s * kTransBlockRows`), and when in
bounds stores `input[(y+i) * istride + x]` into `cache[ty+i][tx]`.  All stores
hit distinct cache entries, so listing them in a fixed order is faithful. -/
def TransposeKernelCacheWrites (rows cols istride : Nat) (input : Mem)
    (bx gy : Nat) : List ((Nat × Nat) × Int) :=
  (List.range kTransBlockRows).flatMap fun ty =>
    (List.range kTransTileDim).flatMap fun tx =>
      (List.range (kTransTileDim / kTransBlockRows)).filterMap fun s =>
        let i := s * kTransBlockRows
        let x := tx + bx * kTransTileDim
        let y := ty + gy * kTransTileDim
        if x < cols ∧ y + i < rows then
          some ((ty + i, tx), input ((y + i) * istride + x))
        else none

/-- The shared-memory `cache` of one block after the load phase and the
`__syncthreads()` barrier; `shared` is the arbitrary uninitialized contents of
the on-chip shared memory. -/
def TransposeKernelCache (rows cols istride : Nat) (input : Mem) (bx gy : Nat)
    (shared : Nat × Nat → Int) : Nat × Nat → Int :=
  writes (TransposeKernelCacheWrites rows cols istride input bx gy) shared

/-- The stores of `TransposeKernel` after the barrier (source lines 81-89) for
block `(bx, gy)`: thread `(tx, ty)` loops over `i` again and, when in bounds,
stores `cache[tx][ty+i]` to `output[(y+i) * ostride + x]` with the re-computed
`x = tx + gy*tile`, `y = ty + bx*tile`. -/
def TransposeKernelStoreWrites (rows cols istride ostride : Nat) (input : Mem)
    (bx gy : Nat) (shared : Nat × Nat → Int) : List (Nat × Int) :=
  (List.range kTransBlockRows).flatMap fun ty =>
    (List.range kTransTileDim).flatMap fun tx =>
      (List.range (kTransTileDim / kTransBlockRows)).filterMap fun s =>
        let i := s * kTransBlockRows
        let x := tx + gy * kTransTileDim
        let y := ty + bx * kTransTileDim
        if x < rows ∧ y + i < cols then
          some ((y + i) * ostride + x,
            TransposeKernelCache rows cols istride input bx gy shared (tx, ty + i))
        else none

/-- All stores of the CUDA `Transpose` launch (source lines 143-147): grid of
`NumBlocks(cols, tile) × NumBlocks(rows, tile)` blocks; `shared bx gy` is the
uninitialized shared memory handed to block `(bx, gy)`. -/
def TransposeGpuWrites (rows cols istride ostride : Nat) (input : Mem)
    (shared : Nat → Nat → Nat × Nat → Int) : List (Nat × Int) :=
  (List.range (NumBlocks cols kTransTileDim)).flatMap fun bx =>
    (List.range (NumBlocks rows kTransTileDim)).flatMap fun gy =>
      TransposeKernelStoreWrites rows cols istride ostride input bx gy (shared bx gy)

/-- The stores of the CPU branch of `Transpose` (source lines 134-140):
`for i < cols, for j < rows: dest_data[i*dest_stride + j] = src_data[j*src_stride + i]`. -/
def TransposeCpuWrites (src : Array2) (dstride : Nat) : List (Nat × Int) :=
  (List.range src.dim1).flatMap fun i =>
    (List.range src.dim0).map fun j =>
      (i * dstride + j, src.data (j * src.elemStride0 + i))

/-- `Transpose(c, src, dest)` (source lines 120-151): the contents of the
destination buffer (of row stride `dstride`, addresses relative to its data
pointer, initial contents `destJunk`) after the operation, on either backend. -/
def Transpose (c : Device) (src : Array2) (dstride : Nat)
    (shared : Nat → Nat → Nat × Nat → Int) (destJunk : Mem) : Mem :=
  match c with
  | Device.cpu => writes (TransposeCpuWrites src dstride) destJunk
  | Device.cuda =>
      writes (TransposeGpuWrites src.dim0 src.dim1 src.elemStride0 dstride src.data shared)
        destJunk

/-- The `K2_CHECK`s at the head of `Transpose` (source lines 122-128):
compatible contexts, `rows == dest->Dim1()`, `cols == dest->Dim0()`. -/
def TransposeChecks (c : Device) (src dest : Array2) : Bool :=
  IsCompatible c src.ctx && IsCompatible c dest.ctx &&
    decide (src.dim0 = dest.dim1) && decide (src.dim1 = dest.dim0)

/-! ### ExclusiveSum (source lines 94-106 and 168-209) -/

/-- Modelled from the spec: the flat 1-D `ExclusiveSum(ctx, n, src, dest)`
called once per row by `internal::ExclusiveSumPerRow` lives in the missing
`k2/csrc/utils.h` (it wraps `cub::DeviceScan::ExclusiveSum`).  The spec defines
it by `dest[0] = 0, dest[i] = dest[i-1] + src[i-1]` (classic prefix sum); this
is the value stored at index `i`. -/
def ExclusiveSum1D (src : Nat → Int) : Nat → Int
  | 0 => 0
  | i + 1 => ExclusiveSum1D src i + src i

/-- The stores of `internal::ExclusiveSumPerRow(src, dest)` (source lines
94-106): `rows = dest->Dim0()`, `cols = dest->Dim1()` (possibly
`src.Dim1() + 1`), and for each row `i` the 1-D exclusive sum of row `i` of
`src` is stored into row `i` of `dest` (row stride `dstride`). -/
def ExclusiveSumPerRowWrites (src : Array2) (rows cols dstride : Nat) : List (Nat × Int) :=
  (List.range rows).flatMap fun i =>
    (List.range cols).map fun k =>
      (i * dstride + k, ExclusiveSum1D (fun t => src.data (i * src.elemStride0 + t)) k)

/-- The destination buffer after `internal::ExclusiveSumPerRow`. -/
def ExclusiveSumPerRow (src : Array2) (rows cols dstride : Nat) (destJunk : Mem) : Mem :=
  writes (ExclusiveSumPerRowWrites src rows cols dstride) destJunk

/-- The `axis == 0` branch of `ExclusiveSum(Array2<T> &src, Array2<T> *dest,
int32_t axis)` (source lines 192-208): transpose `src` into a fresh buffer
`src_trans` of dims `(src_minor, src_major)` and row stride `src_major`
(over-allocated by one element), run the per-row algorithm into a fresh
`dest_trans` of dims `(dest_minor, dest_major)` and row stride `dest_major`,
then transpose `dest_trans` back into `dest` (row stride `destStride`).
`junk1`, `junk2`, `destJunk` are the arbitrary initial contents of the three
buffers and `sh1`, `sh2` the shared memories of the two kernel launches. -/
def ExclusiveSumAxis0 (src : Array2) (destMajor destMinor destStride : Nat)
    (sh1 sh2 : Nat → Nat → Nat × Nat → Int) (junk1 junk2 destJunk : Mem) : Mem :=
  let srcTrans : Array2 :=
    { ctx := src.ctx, dim0 := src.dim1, dim1 := src.dim0, elemStride0 := src.dim0,
      data := Transpose src.ctx src src.dim0 sh1 junk1 }
  let destTrans : Array2 :=
    { ctx := src.ctx, dim0 := destMinor, dim1 := destMajor, elemStride0 := destMajor,
      data := ExclusiveSumPerRow srcTrans destMinor destMajor destMajor junk2 }
  Transpose src.ctx destTrans destStride sh2 destJunk

/-- Stated from the spec's words, for the refinement claim: the direct
definition of "an independent exclusive sum down each column": entry `(i, j)`
of the destination is the sum of the column-`j` entries of `src` strictly
above row `i`. -/
def ColumnExclusiveSumSpec (src : Array2) (i j : Nat) : Int :=
  ((List.range i).map fun k => src.data (k * src.elemStride0 + j)).sum

/-! ### Append (source lines 213-322) -/

/-- `row_splits_vec` of `Append(num_arrays, src)` (source lines 218-226):
`row_splits_vec[i]` is the sum of the dims of the first `i` sources. -/
def AppendRowSplits (srcs : List (List Int)) : List Nat :=
  (List.range (srcs.length + 1)).map fun i => ((srcs.take i).map List.length).sum

/-- `max_dim` of `Append` (source lines 219-223): running maximum of the dims,
starting from 0, updated by `if (dim > max_dim) max_dim = dim`. -/
def AppendMaxDim (srcs : List (List Int)) : Nat :=
  srcs.foldl (fun m s => if s.length > m then s.length else m) 0

/-- `ans_size` of `Append`: the total number of elements. -/
def AppendAnsSize (srcs : List (List Int)) : Nat := (srcs.map List.length).sum

/-- The stores of the CPU branch of `Append` (source lines 232-241): one
`memcpy` per source at the advancing `ans_data` pointer (which at source `i`
sits at offset `row_splits_vec[i]`, the sum of the previous dims), copying the
source's elements in order.  NOTE: the source function computes `ans` but ends
without any `return` statement (undefined behavior for a non-void function);
these definitions model the buffer it fills. -/
def AppendCpuWrites : List (List Int) → Nat → List (Nat × Int)
  | [], _ => []
  | s :: rest, off =>
      ((List.range s.length).map fun t => (off + t, s.getD t 0)) ++
        AppendCpuWrites rest (off + s.length)

/-- The strategy heuristic of the CUDA branch (source line 251):
`max_dim < 2 * avg_input_size + 512` with `avg_input_size = ans_size / num_arrays`
(integer division) selects the rectangular kernel. -/
def AppendChoosesRect (srcs : List (List Int)) : Bool :=
  AppendMaxDim srcs < 2 * (AppendAnsSize srcs / srcs.length) + 512

/-- The stores of the rectangular strategy (source lines 259-269): a 2-D
parallel-for over `(num_arrays, max_dim)`; thread `(i, j)` stores
`src_ptr[j]` to `ans_data[row_start + j]` when `j < row_end - row_start`. -/
def AppendRectWrites (srcs : List (List Int)) : List (Nat × Int) :=
  let rs := AppendRowSplits srcs
  (List.range srcs.length).flatMap fun i =>
    (List.range (AppendMaxDim srcs)).filterMap fun j =>
      let rowStart := rs.getD i 0
      let rowEnd := rs.getD (i + 1) 0
      if j < rowEnd - rowStart then some (rowStart + j, (srcs.getD i []).getD j 0)
      else none

/-- The `block_dim` loop of the block-balanced strategy (source lines 271-272):
`block_dim = 256; while (block_dim * 4 < avg_input_size && block_dim < 8192)
block_dim *= 2;`.  The fuel argument only bounds the recursion; 32 iterations
is far more than the loop can run, since `block_dim` doubles from 256 and the
guard stops it at 8192 (at most 5 iterations). -/
def AppendBlockDimLoop (avg : Nat) : Nat → Nat → Nat
  | 0, bd => bd
  | fuel + 1, bd =>
      if bd * 4 < avg ∧ bd < 8192 then AppendBlockDimLoop avg fuel (bd * 2) else bd

/-- `block_dim` for the block-balanced strategy of `Append`. -/
def AppendBlockDim (srcs : List (List Int)) : Nat :=
  AppendBlockDimLoop (AppendAnsSize srcs / srcs.length) 32 256

/-- `index_map` (source lines 283-291): for each source `i`, one entry
`(block_of_this_array << 32) + old_index` per `block_dim`-sized block of that
source, i.e. `j * 2^32 + i` for `j` below `ceil(dim_i / block_dim)`. -/
def AppendIndexMap (srcs : List (List Int)) : List Nat :=
  let bd := AppendBlockDim srcs
  (List.range srcs.length).flatMap fun i =>
    (List.range (((srcs.getD i []).length + bd - 1) / bd)).map fun j => j * 2 ^ 32 + i

/-- The stores of the block-balanced strategy (source lines 295-308): a 2-D
parallel-for over `(index_map.Dim(), block_dim)`; thread `(b, j)` decodes
`orig_i = (uint32_t)index` (low 32 bits) and `block_index = (uint32_t)(index >> 32)`,
forms `orig_j = block_index * block_dim + j`, and stores
`src_ptr[orig_j]` to `ans_data[row_start + orig_j]` when in bounds. -/
def AppendBlockWrites (srcs : List (List Int)) : List (Nat × Int) :=
  let rs := AppendRowSplits srcs
  let bd := AppendBlockDim srcs
  let im := AppendIndexMap srcs
  (List.range im.length).flatMap fun b =>
    (List.range bd).filterMap fun j =>
      let index := im.getD b 0
      let origI := index % 2 ^ 32
      let blockIndex := index / 2 ^ 32
      let rowStart := rs.getD origI 0
      let rowEnd := rs.getD (origI + 1) 0
      let origJ := blockIndex * bd + j
      if origJ < rowEnd - rowStart then
        some (rowStart + origJ, (srcs.getD origI []).getD origJ 0)
      else none

/-- The `K2_CHECK_GT(num_arrays, 0)` guard of the pointer-array `Append`
(source line 215). -/
def AppendCountCheck (numArrays : Int) : Except FatalKind Unit :=
  if 0 < numArrays then Except.ok () else Except.error FatalKind.checkFailed

/-- The by-value overload `Append(int32_t src_size, Array1<T> *src)` (source
lines 313-322): after `K2_CHECK_GT(src_size, 0)` it unconditionally hits
`K2_LOG(FATAL) << "Not Implemented"`; the trailing `return src[0];` is dead
code. -/
def AppendFlat (srcSize : Int) : Except FatalKind (List Int) :=
  if 0 < srcSize then Except.error FatalKind.notImplemented
  else Except.error FatalKind.checkFailed

/-- `And(Array1<T> &src, T default_value, Array1<T> *dest)` (source lines
369-373): unconditionally `K2_LOG(FATAL) << "Not implemented"`.  (Named
`AndOp` here because `And` is the logical connective in Lean.) -/
def AndOp (src : List Int) (defaultValue : Int) : Except FatalKind (List Int) :=
  Except.error FatalKind.notImplemented

/-! ### MaxPerSublist (source lines 324-367) -/

/-- The inner loop of the CPU branch of `MaxPerSublist` (source lines 341-344):
starting from position `j` with accumulator `acc`, scan `n` further values,
updating `max_val = (elem > max_val ? elem : max_val)`. -/
def MaxFrom (values : List Int) : Nat → Nat → Int → Int
  | _, 0, acc => acc
  | j, n + 1, acc =>
      let elem := values.getD j 0
      MaxFrom values (j + 1) n (if elem > acc then elem else acc)

/-- The outer loop of the CPU branch (source lines 337-346): one pass over the
rows with the running position `j` carried from row to row; each row `i` scans
from the current `j` up to `row_splits[i+1]` starting from `default_value`. -/
def MpsRows (values : List Int) (defaultValue : Int) : List Nat → Nat → List Int
  | [], _ => []
  | rowEnd :: rest, j =>
      MaxFrom values j (rowEnd - j) defaultValue ::
        MpsRows values defaultValue rest (j + (rowEnd - j))

/-- The CPU branch of `MaxPerSublist(src, default_value, max_values)` (source
lines 336-346): `j` starts at `row_splits[0]` and the row ends are
`row_splits[1..num_rows]`. -/
def MaxPerSublist (rowSplits : List Nat) (values : List Int) (defaultValue : Int) : List Int :=
  MpsRows values defaultValue rowSplits.tail (rowSplits.getD 0 0)

/-- Modelled from the spec: the CUDA branch of `MaxPerSublist` (source lines
347-366) calls `cub::DeviceSegmentedReduce::Reduce` (an external library, not
under src/) with operator max, initial value `default_value` and per-row
offsets `row_splits[i], row_splits[i+1]`: per the spec it is a "device-wide
segmented reduction with per-row boundaries taken directly from the row-splits
array", i.e. each output row is the max-reduction of its segment of `values`,
seeded with the default value. -/
def DeviceSegmentedReduceMax (rowSplits : List Nat) (values : List Int)
    (defaultValue : Int) : List Int :=
  (List.range (rowSplits.length - 1)).map fun i =>
    ((values.drop (rowSplits.getD i 0)).take
        (rowSplits.getD (i + 1) 0 - rowSplits.getD i 0)).foldl max defaultValue

/-- Helper for stating the running-`j` invariant of `MpsRows`: the start
position of row `i` (the previous row end, or the initial `j` for row 0). -/
def prevEnd (j : Nat) (ends : List Nat) : Nat → Nat
  | 0 => j
  | i + 1 => ends.getD i 0

/-! ### RandUniformArray1 (source lines 375-395) -/

/-- `static_cast<int32_t>` of a value computed in a wider signed type:
two's-complement wrap into `[-2^31, 2^31)`. -/
def wrap32 (v : Int) : Int := (v + 2 ^ 31) % 2 ^ 32 - 2 ^ 31

/-- Result of `RandUniformArray1`: the array contents together with the device
the generation ran on (`GetCpuContext()`, source line 378) and the device the
result was transferred to (`temp.To(c)`, source line 394). -/
structure RandResult where
  genCtx : Device
  targetCtx : Device
  values : List Int
  deriving DecidableEq

/-- `RandUniformArray1(c, dim, min_value, max_value)` (source lines 375-395)
for an integral `T` (so `std::is_floating_point<T>::value` is false).
`randMax` is the platform's `RAND_MAX` and `rands i` the `i`-th value drawn
from `rand()` (so `rands i ≤ randMax`).  The three branches of the source:
`max == min` stores 0; large bounds use `min + rand() * (max - min) / RAND_MAX`;
otherwise `min + rand() % static_cast<int32_t>(max + 1 - min)`.  For the last
branch: `rand()` is nonnegative, and C++ `%` truncates, so the result equals
the mathematical remainder by the absolute value of the (wrapped) divisor. -/
def RandUniformArray1 (randMax : Nat) (rands : Nat → Nat) (c : Device) (dim : Nat)
    (minValue maxValue : Int) : Except FatalKind RandResult :=
  if maxValue ≥ minValue then
    Except.ok
      { genCtx := Device.cpu, targetCtx := c,
        values :=
          if maxValue = minValue then (List.range dim).map fun _ => (0 : Int)
          else if |minValue| > (randMax : Int) ∨ |maxValue| > (randMax : Int) then
            (List.range dim).map fun i =>
              minValue + (rands i : Int) * (maxValue - minValue) / (randMax : Int)
          else
            (List.range dim).map fun i =>
              minValue + (rands i : Int) % ((wrap32 (maxValue + 1 - minValue)).natAbs : Int) }
  else Except.error FatalKind.checkFailed

/-! ### Range (source lines 397-412) -/

/-- `Range(c, dim, first_value, inc)` (source lines 397-412): after
`K2_CHECK(dim >= 0)`, fills `ans[i] = first_value + i * inc` (the CPU loop and
the CUDA lambda compute the same formula over the same index range). -/
def Range (dim : Int) (firstValue inc : Int) : Except FatalKind (List Int) :=
  if 0 ≤ dim then
    Except.ok ((List.range dim.toNat).map fun i => firstValue + (i : Int) * inc)
  else Except.error FatalKind.checkFailed

/-! ### ToContiguous (source lines 414-429) -/

/-- The stores of the copy in `ToContiguous` (source lines 423-427): a 2-D
parallel-for over `(dim0, dim1)` storing `in[i * elem_stride0 + j]` to
`out[i * dim1 + j]`. -/
def ToContiguousWrites (src : Array2) : List (Nat × Int) :=
  (List.range src.dim0).flatMap fun i =>
    (List.range src.dim1).map fun j =>
      (i * src.dim1 + j, src.data (i * src.elemStride0 + j))

/-- `ToContiguous(src)` (source lines 414-429): if `dim1 == elem_stride0` the
input view is returned unchanged; otherwise a fresh contiguous array
(`Array2<T> ans(src.Context(), dim0, dim1)`, so same context and dims, row
stride `dim1`, arbitrary initial contents `destJunk`) is filled elementwise. -/
def ToContiguous (src : Array2) (destJunk : Mem) : Array2 :=
  if src.dim1 = src.elemStride0 then src
  else
    { ctx := src.ctx, dim0 := src.dim0, dim1 := src.dim1, elemStride0 := src.dim1,
      data := writes (ToContiguousWrites src) destJunk }

/-- Decidable equality of fallible outcomes, so concrete runs can be checked
by `decide`. -/
instance instDecidableEqExcept {ε α : Type} [DecidableEq ε] [DecidableEq α] :
    DecidableEq (Except ε α) := fun x y =>
  match x, y with
  | Except.ok a, Except.ok b =>
      if h : a = b then Decidable.isTrue (congrArg Except.ok h)
      else Decidable.isFalse (fun he => h (Except.ok.inj he))
  | Except.error a, Except.error b =>
      if h : a = b then Decidable.isTrue (congrArg Except.error h)
      else Decidable.isFalse (fun he => h (Except.error.inj he))
  | Except.ok _, Except.error _ => Decidable.isFalse (fun he => Except.noConfusion he)
  | Except.error _, Except.ok _ => Decidable.isFalse (fun he => Except.noConfusion he)

/-!
## Theorems

First the generic lemmas about store lists, then the characterization of each
operation, then the claim theorems.
-/

/-- A store list leaves an address alone if no store targets it. -/
theorem writes_ne {κ : Type} [DecidableEq κ] :
    ∀ (ws : List (κ × Int)) (m : κ → Int) (k : κ),
      (∀ p ∈ ws, p.1 ≠ k) → writes ws m k = m k := by
  intro ws
  induction ws with
  | nil => intro m k _; rfl
  | cons p t ih =>
      intro m k h
      have hk : p.1 ≠ k := h p (List.mem_cons_self p t)
      have step : writes (p :: t) m k = writes t (writeCell m p.1 p.2) k := rfl
      rw [step, ih _ k (fun q hq => h q (List.mem_cons_of_mem p hq))]
      exact if_neg (fun he => hk he.symm)

/-- If an address is stored to, and every store to that address stores the same
value, then the final contents at the address are that value. -/
theorem writes_at {κ : Type} [DecidableEq κ] :
    ∀ (ws : List (κ × Int)) (m : κ → Int) (k : κ) (v : Int),
      (k, v) ∈ ws → (∀ p ∈ ws, p.1 = k → p.2 = v) → writes ws m k = v := by
  intro ws
  induction ws with
  | nil => intro m k v hmem _; cases hmem
  | cons p t ih =>
      intro m k v hmem huniq
      have step : writes (p :: t) m k = writes t (writeCell m p.1 p.2) k := rfl
      by_cases hkt : ∃ q ∈ t, q.1 = k
      · obtain ⟨q, hq, hq1⟩ := hkt
        have hq2 : q.2 = v := huniq q (List.mem_cons_of_mem p hq) hq1
        have hmem2 : (k, v) ∈ t := by
          obtain ⟨q1, q2⟩ := q
          dsimp at hq1 hq2
          rw [hq1, hq2] at hq
          exact hq
        rw [step]
        exact ih _ k v hmem2 (fun q hq hq1 => huniq q (List.mem_cons_of_mem p hq) hq1)
      · have hp : p = (k, v) := by
          rcases List.mem_cons.mp hmem with h1 | h2
          · exact h1.symm
          · exact absurd ⟨(k, v), h2, rfl⟩ hkt
        rw [step, writes_ne t _ k (fun q hq hq1 => hkt ⟨q, hq, hq1⟩), hp]
        exact if_pos rfl

/-- Uniqueness of the `(row, column)` decomposition of a strided address whose
column part is below the stride. -/
theorem addr_inj {d a1 b1 a2 b2 : Nat} (h1 : b1 < d) (h2 : b2 < d)
    (h : a1 * d + b1 = a2 * d + b2) : a1 = a2 ∧ b1 = b2 := by
  have hd : 0 < d := Nat.lt_of_le_of_lt (Nat.zero_le b1) h1
  have e1 : (a1 * d + b1) / d = a1 := by
    rw [Nat.add_comm, Nat.mul_comm, Nat.add_mul_div_left _ _ hd, Nat.div_eq_of_lt h1,
      Nat.zero_add]
  have e2 : (a2 * d + b2) / d = a2 := by
    rw [Nat.add_comm, Nat.mul_comm, Nat.add_mul_div_left _ _ hd, Nat.div_eq_of_lt h2,
      Nat.zero_add]
  have ha : a1 = a2 := by rw [← e1, ← e2, h]
  refine ⟨ha, ?_⟩
  rw [ha] at h
  exact Nat.add_left_cancel h

/-- A covered index lands in a block below the block count of the grid. -/
theorem div_lt_numBlocks {k n d : Nat} (hd : 0 < d) (h : k < n) :
    k / d < NumBlocks n d := by
  unfold NumBlocks
  have hmod : (n + d - 1) % d < d := Nat.mod_lt _ hd
  have hsum : d * ((n + d - 1) / d) + (n + d - 1) % d = n + d - 1 :=
    Nat.div_add_mod (n + d - 1) d
  have hcov : n ≤ ((n + d - 1) / d) * d := by
    set q := (n + d - 1) / d with hq
    set X := d * q with hX
    rw [Nat.mul_comm, ← hX]
    omega
  rw [Nat.div_lt_iff_lt_mul hd]
  exact Nat.lt_of_lt_of_le h hcov

/-- The prefix-sum recurrence equals the sum of the strict prefix. -/
theorem ExclusiveSum1D_eq_sum (src : Nat → Int) (k : Nat) :
    ExclusiveSum1D src k = ((List.range k).map src).sum := by
  induction k with
  | zero => rfl
  | succ n ih =>
      rw [ExclusiveSum1D, ih, List.range_succ, List.map_append, List.sum_append]
      simp

/-- The prefix sum only reads the strict prefix of its input. -/
theorem ExclusiveSum1D_congr {f g : Nat → Int} :
    ∀ (k : Nat), (∀ t < k, f t = g t) → ExclusiveSum1D f k = ExclusiveSum1D g k := by
  intro k
  induction k with
  | zero => intro _; rfl
  | succ n ih =>
      intro h
      rw [ExclusiveSum1D, ExclusiveSum1D, ih (fun t ht => h t (Nat.lt_succ_of_lt ht)),
        h n (Nat.lt_succ_self n)]

/-- The CPU transpose loop stores the transposed element at every in-range
destination position (destination row stride at least the number of columns,
which is the `ElemStride0() >= Dim1()` view invariant). -/
theorem TransposeCpu_at (src : Array2) (dstride : Nat) (junk : Mem)
    (hst : src.dim0 ≤ dstride) {i j : Nat} (hi : i < src.dim1) (hj : j < src.dim0) :
    writes (TransposeCpuWrites src dstride) junk (i * dstride + j) =
      src.data (j * src.elemStride0 + i) := by
  apply writes_at
  · unfold TransposeCpuWrites
    exact List.mem_flatMap.mpr ⟨i, List.mem_range.mpr hi,
      List.mem_map.mpr ⟨j, List.mem_range.mpr hj, rfl⟩⟩
  · intro p hp hpk
    unfold TransposeCpuWrites at hp
    obtain ⟨i2, hi2, hp2⟩ := List.mem_flatMap.mp hp
    obtain ⟨j2, hj2, hpe⟩ := List.mem_map.mp hp2
    rw [← hpe] at hpk ⊢
    dsimp at hpk ⊢
    have hj2r : j2 < src.dim0 := List.mem_range.mp hj2
    obtain ⟨he1, he2⟩ :=
      addr_inj (Nat.lt_of_lt_of_le hj2r hst) (Nat.lt_of_lt_of_le hj hst) hpk
    rw [he1, he2]

/-- After the load phase, each in-range cache entry of a transpose kernel block
holds the corresponding input element, independent of the uninitialized shared
memory contents. -/
theorem TransposeKernelCache_at (rows cols istride : Nat) (input : Mem) (bx gy : Nat)
    (shared : Nat × Nat → Int) {a b : Nat} (ha : a < 32) (hb : b < 32)
    (hcol : bx * 32 + b < cols) (hrow : gy * 32 + a < rows) :
    TransposeKernelCache rows cols istride input bx gy shared (a, b) =
      input ((gy * 32 + a) * istride + (bx * 32 + b)) := by
  unfold TransposeKernelCache
  apply writes_at
  · unfold TransposeKernelCacheWrites
    refine List.mem_flatMap.mpr
      ⟨a % 8, List.mem_range.mpr (show a % 8 < kTransBlockRows from Nat.mod_lt _ (by omega)), ?_⟩
    refine List.mem_flatMap.mpr
      ⟨b, List.mem_range.mpr (show b < kTransTileDim from hb), ?_⟩
    refine List.mem_filterMap.mpr
      ⟨a / 8, List.mem_range.mpr
        (show a / 8 < kTransTileDim / kTransBlockRows by show a / 8 < 4; omega), ?_⟩
    dsimp only
    simp only [kTransTileDim, kTransBlockRows]
    have hcnd : b + bx * 32 < cols ∧ a % 8 + gy * 32 + a / 8 * 8 < rows := by
      constructor
      · omega
      · omega
    rw [if_pos hcnd]
    have e1 : a % 8 + a / 8 * 8 = a := by omega
    have e2 : a % 8 + gy * 32 + a / 8 * 8 = gy * 32 + a := by omega
    have e3 : b + bx * 32 = bx * 32 + b := by omega
    rw [e1, e2, e3]
  · intro p hp hpk
    unfold TransposeKernelCacheWrites at hp
    obtain ⟨ty, hty, hp1⟩ := List.mem_flatMap.mp hp
    obtain ⟨tx, htx, hp2⟩ := List.mem_flatMap.mp hp1
    obtain ⟨s, hs, hp3⟩ := List.mem_filterMap.mp hp2
    have hty8 : ty < 8 := List.mem_range.mp hty
    have htx32 : tx < 32 := List.mem_range.mp htx
    have hs4 : s < 4 := List.mem_range.mp hs
    dsimp only at hp3
    simp only [kTransTileDim, kTransBlockRows] at hp3
    split at hp3
    · injection hp3 with hp4
      rw [← hp4] at hpk ⊢
      dsimp at hpk ⊢
      injection hpk with hk1 hk2
      have e1 : ty + gy * 32 + s * 8 = gy * 32 + a := by omega
      have e2 : tx + bx * 32 = bx * 32 + b := by omega
      rw [e1, e2]
    · exact Option.noConfusion hp3

/-- Every store of the CUDA transpose launch writes a transposed element to an
in-range destination position. -/
theorem TransposeGpuWrites_mem (rows cols istride ostride : Nat) (input : Mem)
    (shared : Nat → Nat → Nat × Nat → Int) {p : Nat × Int}
    (hp : p ∈ TransposeGpuWrites rows cols istride ostride input shared) :
    ∃ r c, r < cols ∧ c < rows ∧ p = (r * ostride + c, input (c * istride + r)) := by
  unfold TransposeGpuWrites TransposeKernelStoreWrites at hp
  obtain ⟨bx, hbx, hp1⟩ := List.mem_flatMap.mp hp
  obtain ⟨gy, hgy, hp2⟩ := List.mem_flatMap.mp hp1
  obtain ⟨ty, hty, hp3⟩ := List.mem_flatMap.mp hp2
  obtain ⟨tx, htx, hp4⟩ := List.mem_flatMap.mp hp3
  obtain ⟨s, hs, hp5⟩ := List.mem_filterMap.mp hp4
  have hty8 : ty < 8 := List.mem_range.mp hty
  have htx32 : tx < 32 := List.mem_range.mp htx
  have hs4 : s < 4 := List.mem_range.mp hs
  dsimp only at hp5
  simp only [kTransTileDim, kTransBlockRows] at hp5
  split at hp5
  · rename_i hcond
    injection hp5 with hp6
    refine ⟨ty + bx * 32 + s * 8, tx + gy * 32, hcond.2, hcond.1, ?_⟩
    rw [← hp6]
    have hcache :
        TransposeKernelCache rows cols istride input bx gy (shared bx gy) (tx, ty + s * 8) =
          input ((gy * 32 + tx) * istride + (bx * 32 + (ty + s * 8))) :=
      TransposeKernelCache_at rows cols istride input bx gy (shared bx gy)
        (by omega) (by omega) (by omega) (by omega)
    have e : (tx + gy * 32) * istride + (ty + bx * 32 + s * 8) =
        (gy * 32 + tx) * istride + (bx * 32 + (ty + s * 8)) := by ring
    rw [e, ← hcache]
  · exact Option.noConfusion hp5

/-- The CUDA transpose launch stores the transposed element at every in-range
destination position, independent of shared-memory and destination junk. -/
theorem TransposeGpu_at (rows cols istride ostride : Nat) (input : Mem)
    (shared : Nat → Nat → Nat × Nat → Int) (junk : Mem)
    (hro : rows ≤ ostride) {r c : Nat} (hr : r < cols) (hc : c < rows) :
    writes (TransposeGpuWrites rows cols istride ostride input shared) junk
      (r * ostride + c) = input (c * istride + r) := by
  apply writes_at
  · unfold TransposeGpuWrites TransposeKernelStoreWrites
    refine List.mem_flatMap.mpr
      ⟨r / 32, List.mem_range.mpr (div_lt_numBlocks (by decide) hr), ?_⟩
    refine List.mem_flatMap.mpr
      ⟨c / 32, List.mem_range.mpr (div_lt_numBlocks (by decide) hc), ?_⟩
    refine List.mem_flatMap.mpr
      ⟨r % 32 % 8, List.mem_range.mpr
        (show r % 32 % 8 < kTransBlockRows from Nat.mod_lt _ (by omega)), ?_⟩
    refine List.mem_flatMap.mpr
      ⟨c % 32, List.mem_range.mpr
        (show c % 32 < kTransTileDim from Nat.mod_lt _ (by omega)), ?_⟩
    refine List.mem_filterMap.mpr
      ⟨r % 32 / 8, List.mem_range.mpr
        (show r % 32 / 8 < kTransTileDim / kTransBlockRows by show r % 32 / 8 < 4; omega), ?_⟩
    dsimp only
    simp only [kTransTileDim, kTransBlockRows]
    have hcnd : c % 32 + c / 32 * 32 < rows ∧
        r % 32 % 8 + r / 32 * 32 + r % 32 / 8 * 8 < cols := by
      constructor
      · omega
      · omega
    rw [if_pos hcnd]
    have e1 : r % 32 % 8 + r / 32 * 32 + r % 32 / 8 * 8 = r := by omega
    have e2 : c % 32 + c / 32 * 32 = c := by omega
    have e3 : r % 32 % 8 + r % 32 / 8 * 8 = r % 32 := by omega
    rw [e1, e2, e3]
    have hcache :
        TransposeKernelCache rows cols istride input (r / 32) (c / 32)
            (shared (r / 32) (c / 32)) (c % 32, r % 32) =
          input ((c / 32 * 32 + c % 32) * istride + (r / 32 * 32 + r % 32)) :=
      TransposeKernelCache_at rows cols istride input (r / 32) (c / 32)
        (shared (r / 32) (c / 32)) (by omega) (by omega) (by omega) (by omega)
    rw [hcache]
    have e4 : c / 32 * 32 + c % 32 = c := by omega
    have e5 : r / 32 * 32 + r % 32 = r := by omega
    rw [e4, e5]
  · intro p hp hpk
    obtain ⟨r2, c2, hr2, hc2, hpe⟩ :=
      TransposeGpuWrites_mem rows cols istride ostride input shared hp
    rw [hpe] at hpk ⊢
    dsimp at hpk ⊢
    obtain ⟨he1, he2⟩ :=
      addr_inj (Nat.lt_of_lt_of_le hc2 hro) (Nat.lt_of_lt_of_le hc hro) hpk
    rw [he1, he2]

/-- `Transpose` on either backend stores the transposed element at every
in-range destination position. -/
theorem Transpose_at (c : Device) (src : Array2) (dstride : Nat)
    (shared : Nat → Nat → Nat × Nat → Int) (junk : Mem)
    (hst : src.dim0 ≤ dstride) {i j : Nat} (hi : i < src.dim1) (hj : j < src.dim0) :
    Transpose c src dstride shared junk (i * dstride + j) =
      src.data (j * src.elemStride0 + i) := by
  cases c
  · exact TransposeCpu_at src dstride junk hst hi hj
  · exact TransposeGpu_at src.dim0 src.dim1 src.elemStride0 dstride src.data shared junk
      hst hi hj

/-- `ExclusiveSumPerRow` stores, at every in-range destination position, the
exclusive prefix sum of the corresponding source row. -/
theorem ExclusiveSumPerRow_at (src : Array2) (rows cols dstride : Nat) (junk : Mem)
    (hcd : cols ≤ dstride) {i k : Nat} (hi : i < rows) (hk : k < cols) :
    ExclusiveSumPerRow src rows cols dstride junk (i * dstride + k) =
      ExclusiveSum1D (fun t => src.data (i * src.elemStride0 + t)) k := by
  unfold ExclusiveSumPerRow
  apply writes_at
  · unfold ExclusiveSumPerRowWrites
    exact List.mem_flatMap.mpr ⟨i, List.mem_range.mpr hi,
      List.mem_map.mpr ⟨k, List.mem_range.mpr hk, rfl⟩⟩
  · intro p hp hpk
    unfold ExclusiveSumPerRowWrites at hp
    obtain ⟨i2, hi2, hp2⟩ := List.mem_flatMap.mp hp
    obtain ⟨k2, hk2, hpe⟩ := List.mem_map.mp hp2
    rw [← hpe] at hpk ⊢
    dsimp at hpk ⊢
    obtain ⟨he1, he2⟩ := addr_inj (Nat.lt_of_lt_of_le (List.mem_range.mp hk2) hcd)
      (Nat.lt_of_lt_of_le hk hcd) hpk
    rw [he1, he2]

/-- C1: for every source, the per-row exclusive-sum family satisfies
`dest[i][0] == 0` and `dest[i][k] == sum(srcRow[0..k))` at every valid index;
when the destination row is one element longer than the source row, its last
element is the full row sum; and concretely, `ExclusiveSum([1,2,3,4])` with a
5-element destination row yields `[0, 1, 3, 6, 10]`. -/
theorem claim1_exclusive_sum_per_row :
    (∀ (src : Array2) (rows cols dstride : Nat) (junk : Mem), cols ≤ dstride →
      ∀ i < rows, ∀ k < cols,
        ExclusiveSumPerRow src rows cols dstride junk (i * dstride + k) =
          ((List.range k).map fun t => src.data (i * src.elemStride0 + t)).sum) ∧
    (∀ (src : Array2) (rows cols dstride : Nat) (junk : Mem), cols ≤ dstride →
      ∀ i < rows, 0 < cols →
        ExclusiveSumPerRow src rows cols dstride junk (i * dstride + 0) = 0) ∧
    (∀ (src : Array2) (rows srcCols dstride : Nat) (junk : Mem), srcCols + 1 ≤ dstride →
      ∀ i < rows,
        ExclusiveSumPerRow src rows (srcCols + 1) dstride junk (i * dstride + srcCols) =
          ((List.range srcCols).map fun t => src.data (i * src.elemStride0 + t)).sum) ∧
    readOut (ExclusiveSumPerRow
        { ctx := Device.cpu, dim0 := 1, dim1 := 4, elemStride0 := 4,
          data := fun t => [(1 : Int), 2, 3, 4].getD t 0 } 1 5 5 (fun _ => 99)) 5 =
      [0, 1, 3, 6, 10] := by
  refine ⟨?_, ?_, ?_, ?_⟩
  · intro src rows cols dstride junk hcd i hi k hk
    rw [ExclusiveSumPerRow_at src rows cols dstride junk hcd hi hk, ExclusiveSum1D_eq_sum]
  · intro src rows cols dstride junk hcd i hi hc
    exact ExclusiveSumPerRow_at src rows cols dstride junk hcd hi hc
  · intro src rows srcCols dstride junk hcd i hi
    rw [ExclusiveSumPerRow_at src rows (srcCols + 1) dstride junk hcd hi
      (Nat.lt_succ_self srcCols), ExclusiveSum1D_eq_sum]
  · decide

/-- Witness for C1: a concrete strided instance with the hypotheses discharged. -/
theorem claim1_witness :
    (3 : Nat) ≤ 4 ∧ (0 : Nat) < 1 ∧ (2 : Nat) < 3 ∧
    ExclusiveSumPerRow
        { ctx := Device.cpu, dim0 := 1, dim1 := 3, elemStride0 := 3,
          data := fun t => [(5 : Int), 6, 7].getD t 0 } 1 3 4 (fun _ => 0) (0 * 4 + 2) = 11 :=
  ⟨by decide, by decide, by decide, by
    have h := claim1_exclusive_sum_per_row.1
      { ctx := Device.cpu, dim0 := 1, dim1 := 3, elemStride0 := 3,
        data := fun t => [(5 : Int), 6, 7].getD t 0 } 1 3 4 (fun _ => 0)
      (by decide) 0 (by decide) 2 (by decide)
    rw [h]
    decide⟩

/-- C3: transposing a rectangular view (possibly non-contiguous, on either
backend) into a correctly-dimensioned destination and transposing the result
back yields the original elementwise, under the precondition
`dest.Dim0() == src.Dim1()` and `dest.Dim1() == src.Dim0()` (checked together
with context compatibility by `TransposeChecks`). -/
theorem claim3_transpose_round_trip :
    ∀ (c : Device) (src t : Array2) (d2 : Nat)
      (sh1 sh2 : Nat → Nat → Nat × Nat → Int) (j1 j2 : Mem),
      TransposeChecks c src t = true →
      t.data = Transpose c src t.elemStride0 sh1 j1 →
      src.dim0 ≤ t.elemStride0 → src.dim1 ≤ d2 →
      ∀ i < src.dim0, ∀ j < src.dim1,
        Transpose c t d2 sh2 j2 (i * d2 + j) = src.data (i * src.elemStride0 + j) := by
  intro c src t d2 sh1 sh2 j1 j2 hchk hdata h1 h2 i hi j hj
  simp only [TransposeChecks, IsCompatible, Bool.and_eq_true, decide_eq_true_eq] at hchk
  obtain ⟨⟨⟨hcs, hcd⟩, hd1⟩, hd0⟩ := hchk
  have houter := Transpose_at c t d2 sh2 j2 (show t.dim0 ≤ d2 by rw [← hd0]; exact h2)
    (show i < t.dim1 by rw [← hd1]; exact hi) (show j < t.dim0 by rw [← hd0]; exact hj)
  rw [houter, hdata]
  exact Transpose_at c src t.elemStride0 sh1 j1 h1 hj hi

/-- Witness for C3: a concrete 2x3 view with row stride 4 (non-contiguous),
transposed into a 3x2 view of row stride 3 and back with destination stride 5. -/
theorem claim3_witness :
    TransposeChecks Device.cpu
        { ctx := Device.cpu, dim0 := 2, dim1 := 3, elemStride0 := 4,
          data := fun t => [(10 : Int), 11, 12, 0, 20, 21, 22, 0].getD t 0 }
        { ctx := Device.cpu, dim0 := 3, dim1 := 2, elemStride0 := 3,
          data := Transpose Device.cpu
            { ctx := Device.cpu, dim0 := 2, dim1 := 3, elemStride0 := 4,
              data := fun t => [(10 : Int), 11, 12, 0, 20, 21, 22, 0].getD t 0 } 3
            (fun _ _ _ => 0) (fun _ => 0) } = true ∧
    Transpose Device.cpu
        { ctx := Device.cpu, dim0 := 3, dim1 := 2, elemStride0 := 3,
          data := Transpose Device.cpu
            { ctx := Device.cpu, dim0 := 2, dim1 := 3, elemStride0 := 4,
              data := fun t => [(10 : Int), 11, 12, 0, 20, 21, 22, 0].getD t 0 } 3
            (fun _ _ _ => 0) (fun _ => 0) } 5 (fun _ _ _ => 0) (fun _ => 0) (1 * 5 + 2) =
      (fun t => [(10 : Int), 11, 12, 0, 20, 21, 22, 0].getD t 0) (1 * 4 + 2) :=
  ⟨by decide,
    claim3_transpose_round_trip Device.cpu _ _ 5 (fun _ _ _ => 0) (fun _ _ _ => 0)
      (fun _ => 0) (fun _ => 0) (by decide) rfl (by decide) (by decide) 1 (by decide)
      2 (by decide)⟩

/-- C5: the transpose-based column-axis `ExclusiveSum` (axis == 0) produces,
at every in-range destination position, exactly the direct specification of an
independent exclusive sum down each column. -/
theorem claim5_exclusive_sum_axis0_refines :
    ∀ (src : Array2) (destMajor destMinor destStride : Nat)
      (sh1 sh2 : Nat → Nat → Nat × Nat → Int) (junk1 junk2 destJunk : Mem),
      destMinor = src.dim1 →
      (destMajor = src.dim0 ∨ destMajor = src.dim0 + 1) →
      destMinor ≤ destStride →
      ∀ i < destMajor, ∀ j < destMinor,
        ExclusiveSumAxis0 src destMajor destMinor destStride sh1 sh2 junk1 junk2 destJunk
            (i * destStride + j) =
          ColumnExclusiveSumSpec src i j := by
  intro src destMajor destMinor destStride sh1 sh2 junk1 junk2 destJunk hminor hmajor
    hstride i hi j hj
  simp only [ExclusiveSumAxis0]
  rw [Transpose_at src.ctx
    { ctx := src.ctx, dim0 := destMinor, dim1 := destMajor, elemStride0 := destMajor,
      data := ExclusiveSumPerRow
        { ctx := src.ctx, dim0 := src.dim1, dim1 := src.dim0, elemStride0 := src.dim0,
          data := Transpose src.ctx src src.dim0 sh1 junk1 }
        destMinor destMajor destMajor junk2 }
    destStride sh2 destJunk hstride hi hj]
  dsimp only
  rw [ExclusiveSumPerRow_at
    { ctx := src.ctx, dim0 := src.dim1, dim1 := src.dim0, elemStride0 := src.dim0,
      data := Transpose src.ctx src src.dim0 sh1 junk1 }
    destMinor destMajor destMajor junk2 (Nat.le_refl destMajor) hj hi]
  have hiled : i ≤ src.dim0 := by
    rcases hmajor with h | h
    · omega
    · omega
  have hcongr :
      ExclusiveSum1D (fun t => Transpose src.ctx src src.dim0 sh1 junk1 (j * src.dim0 + t)) i =
        ExclusiveSum1D (fun t => src.data (t * src.elemStride0 + j)) i := by
    apply ExclusiveSum1D_congr
    intro t ht
    exact Transpose_at src.ctx src src.dim0 sh1 junk1 (Nat.le_refl src.dim0)
      (show j < src.dim1 by rw [← hminor]; exact hj)
      (show t < src.dim0 from Nat.lt_of_lt_of_le ht hiled)
  rw [hcongr, ExclusiveSum1D_eq_sum]
  rfl

/-- Witness for C5: a 2x2 source, destination with one extra row
(`destMajor = dim0 + 1`), checked against the direct columnwise value. -/
theorem claim5_witness :
    (2 : Nat) = 2 ∧ ((3 : Nat) = 2 ∨ (3 : Nat) = 2 + 1) ∧ (2 : Nat) ≤ 2 ∧
    ExclusiveSumAxis0
        { ctx := Device.cpu, dim0 := 2, dim1 := 2, elemStride0 := 2,
          data := fun t => [(1 : Int), 2, 3, 4].getD t 0 } 3 2 2
        (fun _ _ _ => 0) (fun _ _ _ => 0) (fun _ => 0) (fun _ => 0) (fun _ => 0)
        (2 * 2 + 0) =
      ColumnExclusiveSumSpec
        { ctx := Device.cpu, dim0 := 2, dim1 := 2, elemStride0 := 2,
          data := fun t => [(1 : Int), 2, 3, 4].getD t 0 } 2 0 ∧
    ColumnExclusiveSumSpec
        { ctx := Device.cpu, dim0 := 2, dim1 := 2, elemStride0 := 2,
          data := fun t => [(1 : Int), 2, 3, 4].getD t 0 } 2 0 = 4 :=
  ⟨rfl, Or.inr rfl, by decide,
    claim5_exclusive_sum_axis0_refines
      { ctx := Device.cpu, dim0 := 2, dim1 := 2, elemStride0 := 2,
        data := fun t => [(1 : Int), 2, 3, 4].getD t 0 } 3 2 2
      (fun _ _ _ => 0) (fun _ _ _ => 0) (fun _ => 0) (fun _ => 0) (fun _ => 0)
      rfl (Or.inr rfl) (by decide) 2 (by decide) 0 (by decide),
    by decide⟩

/-- C6: `ToContiguous` is idempotent, and on an already-contiguous view
(`ElemStride0 == Dim1`) it returns the input view unchanged. -/
theorem claim6_to_contiguous_idempotent :
    (∀ (x : Array2) (j1 j2 : Mem), ToContiguous (ToContiguous x j1) j2 = ToContiguous x j1) ∧
    (∀ (x : Array2) (j : Mem), x.elemStride0 = x.dim1 → ToContiguous x j = x) := by
  constructor
  · intro x j1 j2
    by_cases h : x.dim1 = x.elemStride0
    · have e1 : ToContiguous x j1 = x := by
        unfold ToContiguous
        rw [if_pos h]
      rw [e1]
      unfold ToContiguous
      rw [if_pos h]
    · have e1 : ToContiguous x j1 =
          { ctx := x.ctx, dim0 := x.dim0, dim1 := x.dim1, elemStride0 := x.dim1,
            data := writes (ToContiguousWrites x) j1 } := by
        unfold ToContiguous
        rw [if_neg h]
      rw [e1]
      unfold ToContiguous
      dsimp only
      rw [if_pos rfl]
  · intro x j h
    unfold ToContiguous
    rw [if_pos h.symm]

/-- Witness for C6: idempotence on a non-contiguous view, and identity on a
contiguous one. -/
theorem claim6_witness :
    ToContiguous (ToContiguous
        { ctx := Device.cpu, dim0 := 2, dim1 := 2, elemStride0 := 3,
          data := fun t => [(1 : Int), 2, 0, 3, 4, 0].getD t 0 } (fun _ => 0)) (fun _ => 7) =
      ToContiguous
        { ctx := Device.cpu, dim0 := 2, dim1 := 2, elemStride0 := 3,
          data := fun t => [(1 : Int), 2, 0, 3, 4, 0].getD t 0 } (fun _ => 0) ∧
    ToContiguous
        { ctx := Device.cpu, dim0 := 1, dim1 := 2, elemStride0 := 2,
          data := fun t => [(8 : Int), 9].getD t 0 } (fun _ => 0) =
      { ctx := Device.cpu, dim0 := 1, dim1 := 2, elemStride0 := 2,
        data := fun t => [(8 : Int), 9].getD t 0 } :=
  ⟨claim6_to_contiguous_idempotent.1 _ (fun _ => 0) (fun _ => 7),
    claim6_to_contiguous_idempotent.2 _ (fun _ => 0) rfl⟩

/-- C10: on a non-contiguous view, `ToContiguous` returns a fresh array in the
source's context with the same `Dim0`/`Dim1`, fully contiguous
(`ElemStride0 == Dim1`), elementwise equal to the source view. -/
theorem claim10_to_contiguous_fresh :
    ∀ (x : Array2) (junk : Mem), x.elemStride0 ≠ x.dim1 →
      (ToContiguous x junk).ctx = x.ctx ∧
      (ToContiguous x junk).dim0 = x.dim0 ∧
      (ToContiguous x junk).dim1 = x.dim1 ∧
      (ToContiguous x junk).elemStride0 = (ToContiguous x junk).dim1 ∧
      ∀ i < x.dim0, ∀ j < x.dim1,
        (ToContiguous x junk).data (i * x.dim1 + j) = x.data (i * x.elemStride0 + j) := by
  intro x junk h
  have h2 : ¬ (x.dim1 = x.elemStride0) := fun he => h he.symm
  unfold ToContiguous
  rw [if_neg h2]
  refine ⟨rfl, rfl, rfl, rfl, ?_⟩
  intro i hi j hj
  dsimp only
  apply writes_at
  · unfold ToContiguousWrites
    exact List.mem_flatMap.mpr ⟨i, List.mem_range.mpr hi,
      List.mem_map.mpr ⟨j, List.mem_range.mpr hj, rfl⟩⟩
  · intro p hp hpk
    unfold ToContiguousWrites at hp
    obtain ⟨i2, hi2, hp2⟩ := List.mem_flatMap.mp hp
    obtain ⟨j2, hj2, hpe⟩ := List.mem_map.mp hp2
    rw [← hpe] at hpk ⊢
    dsimp at hpk ⊢
    obtain ⟨he1, he2⟩ := addr_inj (List.mem_range.mp hj2) hj hpk
    rw [he1, he2]

/-- Witness for C10: a 2x2 view of row stride 3. -/
theorem claim10_witness :
    ((3 : Nat) ≠ 2) ∧
    (ToContiguous
        { ctx := Device.cpu, dim0 := 2, dim1 := 2, elemStride0 := 3,
          data := fun t => [(1 : Int), 2, 0, 3, 4, 0].getD t 0 } (fun _ => 0)).data
        (1 * 2 + 1) =
      ({ ctx := Device.cpu, dim0 := 2, dim1 := 2, elemStride0 := 3,
          data := fun t => [(1 : Int), 2, 0, 3, 4, 0].getD t 0 } : Array2).data (1 * 3 + 1) :=
  ⟨by decide,
    (claim10_to_contiguous_fresh
        { ctx := Device.cpu, dim0 := 2, dim1 := 2, elemStride0 := 3,
          data := fun t => [(1 : Int), 2, 0, 3, 4, 0].getD t 0 } (fun _ => 0)
        (by decide)).2.2.2.2 1 (by decide) 1 (by decide)⟩

/-- C8 counterexample: `Range` is an operation of this layer taking a length
argument, `0` is a non-positive count, yet `Range(c, 0, ...)` passes its
`K2_CHECK(dim >= 0)` and succeeds with an empty array instead of failing. -/
theorem claim8_counterexample :
    Range 0 7 1 = Except.ok [] ∧ (0 : Int) ≤ 0 := by decide

/-- C8 (amended): `Append` fails fast on every non-positive source count
(in particular zero sources), while `Range` fails fast only on negative
lengths and accepts length zero, returning an empty array. -/
theorem claim8_guards_amended :
    (∀ n : Int, n ≤ 0 → AppendCountCheck n = Except.error FatalKind.checkFailed) ∧
    (∀ n : Int, 0 < n → AppendCountCheck n = Except.ok ()) ∧
    (∀ d firstValue inc : Int, d < 0 →
      Range d firstValue inc = Except.error FatalKind.checkFailed) ∧
    (∀ firstValue inc : Int, Range 0 firstValue inc = Except.ok []) := by
  refine ⟨?_, ?_, ?_, ?_⟩
  · intro n hn
    unfold AppendCountCheck
    rw [if_neg (by omega)]
  · intro n hn
    unfold AppendCountCheck
    rw [if_pos hn]
  · intro d f i hd
    unfold Range
    rw [if_neg (by omega)]
  · intro f i
    unfold Range
    rw [if_pos (le_refl 0)]
    rfl

/-- Witness for C8: concrete counts. -/
theorem claim8_witness :
    ((-3 : Int) ≤ 0) ∧ AppendCountCheck (-3) = Except.error FatalKind.checkFailed ∧
    ((-2 : Int) < 0) ∧ Range (-2) 5 1 = Except.error FatalKind.checkFailed :=
  ⟨by decide, claim8_guards_amended.1 (-3) (by decide), by decide,
    claim8_guards_amended.2.2.1 (-2) 5 1 (by decide)⟩

/-- C9: the by-value `Append` overload with a positive source count, and every
`And` invocation, fail fatally with the explicit not-implemented signal and
never produce a result. -/
theorem claim9_not_implemented :
    (∀ n : Int, 0 < n → AppendFlat n = Except.error FatalKind.notImplemented) ∧
    (∀ (src : List Int) (d : Int), AndOp src d = Except.error FatalKind.notImplemented) := by
  constructor
  · intro n hn
    unfold AppendFlat
    rw [if_pos hn]
  · intro src d
    rfl

/-- Witness for C9: concrete invocations. -/
theorem claim9_witness :
    ((0 : Int) < 3) ∧ AppendFlat 3 = Except.error FatalKind.notImplemented ∧
    AndOp [1, 2] 0 = Except.error FatalKind.notImplemented :=
  ⟨by decide, claim9_not_implemented.1 3 (by decide), claim9_not_implemented.2 [1, 2] 0⟩

/-- C2 (evaluation at the failing input): for sources of lengths `[3, 0, 5]`
the row-splits are `[0, 3, 3, 8]`, the heuristic selects the rectangular
strategy, and the buffer filled by the function — under the CPU copy, the
rectangular kernel, and the block-balanced kernel alike — is the in-order
concatenation of the sources (junk initial contents `37` everywhere show every
cell is written).  The source function itself, however, ends without returning
`ans` (see `AppendCpuWrites`). -/
theorem claim2_append_buffer_eval :
    AppendRowSplits [[10, 20, 30], [], [1, 2, 3, 4, 5]] = [0, 3, 3, 8] ∧
    AppendChoosesRect [[10, 20, 30], [], [1, 2, 3, 4, 5]] = true ∧
    readOut (writes (AppendCpuWrites [[10, 20, 30], [], [1, 2, 3, 4, 5]] 0) (fun _ => 37)) 8 =
      [10, 20, 30, 1, 2, 3, 4, 5] ∧
    readOut (writes (AppendRectWrites [[10, 20, 30], [], [1, 2, 3, 4, 5]]) (fun _ => 37)) 8 =
      [10, 20, 30, 1, 2, 3, 4, 5] ∧
    readOut (writes (AppendBlockWrites [[10, 20, 30], [], [1, 2, 3, 4, 5]]) (fun _ => 37)) 8 =
      [10, 20, 30, 1, 2, 3, 4, 5] := by
  decide

/-- C7 counterexample: with bounds `max_value == min_value == 5` (so
`max_value >= min_value` holds) every produced element is `0`, which does not
lie in the closed interval `[5, 5]`. -/
theorem claim7_counterexample :
    RandUniformArray1 32767 (fun _ => 0) Device.cpu 1 5 5 =
      Except.ok { genCtx := Device.cpu, targetCtx := Device.cpu, values := [(0 : Int)] } ∧
    ¬ ((5 : Int) ≤ 0 ∧ (0 : Int) ≤ 5) := by
  decide

/-- C7 (amended): for `max_value > min_value` every element lies in
`[min_value, max_value]`; for `max_value == min_value` every element is `0`;
generation always happens on the sequential (host) backend, and the result is
transferred to the target context.  (`randMax` is the platform `RAND_MAX`,
which the C standard bounds by `INT_MAX = 2^31 - 1`; `rand()` draws lie in
`[0, randMax]`.) -/
theorem claim7_rand_uniform_amended :
    ∀ (randMax : Nat) (rands : Nat → Nat) (c : Device) (dim : Nat) (minV maxV : Int),
      0 < randMax → randMax ≤ 2 ^ 31 - 1 → (∀ i, rands i ≤ randMax) → minV ≤ maxV →
      ∃ r : RandResult,
        RandUniformArray1 randMax rands c dim minV maxV = Except.ok r ∧
        r.genCtx = Device.cpu ∧ r.targetCtx = c ∧ r.values.length = dim ∧
        (minV = maxV → ∀ x ∈ r.values, x = 0) ∧
        (minV < maxV → ∀ x ∈ r.values, minV ≤ x ∧ x ≤ maxV) := by
  intro randMax rands c dim minV maxV hrm hrm31 hrands hle
  unfold RandUniformArray1
  rw [if_pos hle]
  refine ⟨_, rfl, rfl, rfl, ?_, ?_, ?_⟩
  · dsimp only
    split
    · simp
    · split
      · simp
      · simp
  · intro hEq x hx
    dsimp only at hx
    rw [if_pos hEq.symm] at hx
    obtain ⟨i, hi, he⟩ := List.mem_map.mp hx
    omega
  · intro hLt x hx
    dsimp only at hx
    have hne : ¬ (maxV = minV) := by omega
    rw [if_neg hne] at hx
    have hrMpos : (0 : Int) < (randMax : Int) := by exact_mod_cast hrm
    by_cases habs : |minV| > (randMax : Int) ∨ |maxV| > (randMax : Int)
    · rw [if_pos habs] at hx
      obtain ⟨i, hi, he⟩ := List.mem_map.mp hx
      rw [← he]
      have h1 : (0 : Int) ≤ (rands i : Int) := Int.natCast_nonneg _
      have hrI : (rands i : Int) ≤ (randMax : Int) := by exact_mod_cast hrands i
      have hspan : (0 : Int) ≤ maxV - minV := by omega
      constructor
      · have hnn : (0 : Int) ≤ (rands i : Int) * (maxV - minV) / (randMax : Int) :=
          Int.ediv_nonneg (mul_nonneg h1 hspan) hrMpos.le
        omega
      · have hmul : (rands i : Int) * (maxV - minV) ≤ (randMax : Int) * (maxV - minV) :=
          mul_le_mul_of_nonneg_right hrI hspan
        have hdiv : (rands i : Int) * (maxV - minV) / (randMax : Int) ≤
            (randMax : Int) * (maxV - minV) / (randMax : Int) :=
          Int.ediv_le_ediv hrMpos hmul
        rw [Int.mul_ediv_cancel_left _ (ne_of_gt hrMpos)] at hdiv
        omega
    · rw [if_neg habs] at hx
      obtain ⟨i, hi, he⟩ := List.mem_map.mp hx
      rw [← he]
      push_neg at habs
      obtain ⟨hminA, hmaxA⟩ := habs
      obtain ⟨hminL, hminU⟩ := abs_le.mp hminA
      obtain ⟨hmaxL, hmaxU⟩ := abs_le.mp hmaxA
      have hR : (randMax : Int) ≤ 2 ^ 31 - 1 := by omega
      set v := maxV + 1 - minV with hv
      have hv2 : 2 ≤ v := by omega
      have hvU : v ≤ 2 ^ 32 - 1 := by omega
      have hrI : (rands i : Int) ≤ (randMax : Int) := by exact_mod_cast hrands i
      have hr0 : (0 : Int) ≤ (rands i : Int) := Int.natCast_nonneg _
      by_cases hsmall : v ≤ 2 ^ 31 - 1
      · have hwrap : wrap32 v = v := by
          unfold wrap32
          omega
        rw [hwrap]
        have hnat : ((v.natAbs : Int)) = v := Int.natAbs_of_nonneg (by omega)
        rw [hnat]
        have hmodn : (0 : Int) ≤ (rands i : Int) % v := Int.emod_nonneg _ (by omega)
        have hmodl : (rands i : Int) % v < v := Int.emod_lt_of_pos _ (by omega)
        omega
      · have hwrap : wrap32 v = v - 2 ^ 32 := by
          unfold wrap32
          omega
        rw [hwrap]
        have hnat : (((v - 2 ^ 32).natAbs : Int)) = 2 ^ 32 - v := by
          rw [Int.natCast_natAbs, abs_of_neg (by omega)]
          omega
        rw [hnat]
        have hpos : (0 : Int) < 2 ^ 32 - v := by omega
        have hmodn : (0 : Int) ≤ (rands i : Int) % (2 ^ 32 - v) :=
          Int.emod_nonneg _ (by omega)
        have hmodl : (rands i : Int) % (2 ^ 32 - v) < 2 ^ 32 - v :=
          Int.emod_lt_of_pos _ hpos
        omega

/-- Witness for C7: concrete bounds `[0, 10]` with `RAND_MAX = 32767` and the
constant draw `7`. -/
theorem claim7_witness :
    ∃ r : RandResult,
      RandUniformArray1 32767 (fun _ => 7) Device.cuda 2 0 10 = Except.ok r ∧
      r.genCtx = Device.cpu ∧ r.targetCtx = Device.cuda ∧ r.values.length = 2 ∧
      ((0 : Int) = 10 → ∀ x ∈ r.values, x = 0) ∧
      ((0 : Int) < 10 → ∀ x ∈ r.values, 0 ≤ x ∧ x ≤ 10) :=
  claim7_rand_uniform_amended 32767 (fun _ => 7) Device.cuda 2 0 10 (by decide)
    (by decide) (by intro i; show (7 : Nat) ≤ 32767; decide) (by decide)

/-- The inner scan of the CPU `MaxPerSublist` equals a fold of the scanned
slice with the running accumulator. -/
theorem MaxFrom_eq_foldl (values : List Int) :
    ∀ (n j : Nat) (acc : Int), j + n ≤ values.length →
      MaxFrom values j n acc = ((values.drop j).take n).foldl max acc := by
  intro n
  induction n with
  | zero =>
      intro j acc h
      simp [MaxFrom]
  | succ n ih =>
      intro j acc h
      have hj : j < values.length := by omega
      rw [MaxFrom]
      rw [ih (j + 1) _ (by omega)]
      rw [List.drop_eq_getElem_cons hj, List.take_succ_cons, List.foldl_cons]
      have e : (if values.getD j 0 > acc then values.getD j 0 else acc) = max acc values[j] := by
        rw [List.getD_eq_getElem values 0 hj]
        rcases le_or_lt values[j] acc with hc | hc
        · rw [if_neg (not_lt.mpr hc), max_eq_left hc]
        · rw [if_pos hc, max_eq_right hc.le]
      rw [e]

/-- The CPU pass writes one output per row end. -/
theorem MpsRows_length (values : List Int) (d : Int) :
    ∀ (ends : List Nat) (j : Nat), (MpsRows values d ends j).length = ends.length := by
  intro ends
  induction ends with
  | nil => intro j; rfl
  | cons e rest ih =>
      intro j
      rw [MpsRows]
      simp [ih]

/-- The running-position invariant of the CPU `MaxPerSublist` pass: under a
monotone chain of row ends, row `i` scans exactly the slice from its start
(the previous row end) to its own end. -/
theorem MpsRows_getD (values : List Int) (d : Int) :
    ∀ (ends : List Nat) (j : Nat), List.Chain (· ≤ ·) j ends →
      (∀ e ∈ ends, e ≤ values.length) →
      ∀ i, i < ends.length →
        (MpsRows values d ends j).getD i 0 =
          ((values.drop (prevEnd j ends i)).take
              (ends.getD i 0 - prevEnd j ends i)).foldl max d := by
  intro ends
  induction ends with
  | nil =>
      intro j _ _ i hi
      simp at hi
  | cons e rest ih =>
      intro j hchain hbound i hi
      obtain ⟨hje, hcr⟩ := List.chain_cons.mp hchain
      cases i with
      | zero =>
          rw [MpsRows]
          rw [List.getD_cons_zero]
          rw [MaxFrom_eq_foldl values (e - j) j d
            (by have := hbound e (List.mem_cons_self e rest); omega)]
          rfl
      | succ i2 =>
          rw [MpsRows]
          rw [List.getD_cons_succ]
          have hje2 : j + (e - j) = e := by omega
          rw [hje2]
          rw [ih e hcr (fun x hx => hbound x (List.mem_cons_of_mem e hx)) i2
            (by simpa using hi)]
          cases i2 with
          | zero => rfl
          | succ i3 => rfl

/-- Reading one row of the spec-modelled segmented reduction. -/
theorem DeviceSegmentedReduceMax_getD (rowSplits : List Nat) (values : List Int) (d : Int)
    {i : Nat} (hi : i < rowSplits.length - 1) :
    (DeviceSegmentedReduceMax rowSplits values d).getD i 0 =
      ((values.drop (rowSplits.getD i 0)).take
          (rowSplits.getD (i + 1) 0 - rowSplits.getD i 0)).foldl max d := by
  unfold DeviceSegmentedReduceMax
  have hlen : i < ((List.range (rowSplits.length - 1)).map
      (fun i => ((values.drop (rowSplits.getD i 0)).take
          (rowSplits.getD (i + 1) 0 - rowSplits.getD i 0)).foldl max d)).length := by
    simpa using hi
  rw [List.getD_eq_getElem _ 0 hlen, List.getElem_map, List.getElem_range]

/-- C4 counterexample: the single row is `[1, 2]` — non-empty, true maximum
`2` — but with the caller-supplied default `100` both the CPU pass and the
segmented reduction return `100`, not the row's true maximum. -/
theorem claim4_counterexample :
    MaxPerSublist [0, 2] [1, 2] 100 = [100] ∧
    DeviceSegmentedReduceMax [0, 2] [1, 2] 100 = [100] ∧ ((100 : Int) ≠ 2) := by
  decide

/-- C4 (amended): for a valid two-axis ragged shape (monotone row-splits whose
entries bound the values array), each output row is the max-reduction of its
row's slice seeded with the caller-supplied default: an empty row yields
exactly the default, and a non-empty row yields the maximum of the default and
the row's elements (the true row maximum whenever the default does not exceed
it); the CPU single pass agrees everywhere with the (spec-modelled) CUDA
segmented reduction. -/
theorem claim4_max_per_sublist_amended :
    ∀ (rowSplits : List Nat) (values : List Int) (d : Int),
      List.Chain' (· ≤ ·) rowSplits →
      (∀ e ∈ rowSplits, e ≤ values.length) →
      MaxPerSublist rowSplits values d = DeviceSegmentedReduceMax rowSplits values d ∧
      ∀ i, i + 1 < rowSplits.length →
        ((MaxPerSublist rowSplits values d).getD i 0 =
          ((values.drop (rowSplits.getD i 0)).take
              (rowSplits.getD (i + 1) 0 - rowSplits.getD i 0)).foldl max d) ∧
        (rowSplits.getD i 0 = rowSplits.getD (i + 1) 0 →
          (MaxPerSublist rowSplits values d).getD i 0 = d) := by
  intro rowSplits values d hmono hbound
  cases rowSplits with
  | nil =>
      refine ⟨rfl, ?_⟩
      intro i hi
      simp at hi
  | cons r0 ends =>
      have hchain : List.Chain (· ≤ ·) r0 ends := hmono
      have hboundE : ∀ e ∈ ends, e ≤ values.length :=
        fun e he => hbound e (List.mem_cons_of_mem r0 he)
      have hchar : ∀ i, i < ends.length →
          (MaxPerSublist (r0 :: ends) values d).getD i 0 =
            ((values.drop ((r0 :: ends).getD i 0)).take
                ((r0 :: ends).getD (i + 1) 0 - (r0 :: ends).getD i 0)).foldl max d := by
        intro i hi
        have h1 := MpsRows_getD values d ends r0 hchain hboundE i hi
        have h2 : MaxPerSublist (r0 :: ends) values d = MpsRows values d ends r0 := rfl
        rw [h2, h1]
        cases i with
        | zero => rfl
        | succ i2 => rfl
      have hlenM : (MaxPerSublist (r0 :: ends) values d).length = ends.length :=
        MpsRows_length values d ends r0
      refine ⟨?_, ?_⟩
      · apply List.ext_getElem
        · rw [hlenM]
          simp [DeviceSegmentedReduceMax]
        · intro n h1 h2
          have hn : n < ends.length := by rw [hlenM] at h1; exact h1
          rw [← List.getD_eq_getElem _ 0 h1, ← List.getD_eq_getElem _ 0 h2]
          rw [hchar n hn, DeviceSegmentedReduceMax_getD (r0 :: ends) values d (by simpa using hn)]
      · intro i hi
        have hii : i < ends.length := by
          simp only [List.length_cons] at hi
          omega
        refine ⟨hchar i hii, ?_⟩
        intro hEq
        rw [hchar i hii, hEq]
        simp

/-- Witness for C4: row-splits `[0, 2, 2, 5]` over `[3, 1, 7, 2, 5]` with
default `-100`: rows `[3,1]`, `[]`, `[7,2,5]` agree on both backends and the
empty row yields the default. -/
theorem claim4_witness :
    List.Chain' (· ≤ ·) [0, 2, 2, 5] ∧
    (∀ e ∈ [0, 2, 2, 5], e ≤ [(3 : Int), 1, 7, 2, 5].length) ∧
    MaxPerSublist [0, 2, 2, 5] [3, 1, 7, 2, 5] (-100) =
      DeviceSegmentedReduceMax [0, 2, 2, 5] [3, 1, 7, 2, 5] (-100) ∧
    (MaxPerSublist [0, 2, 2, 5] [3, 1, 7, 2, 5] (-100)).getD 1 0 = -100 :=
  ⟨by norm_num [List.chain'_cons], by decide,
    (claim4_max_per_sublist_amended [0, 2, 2, 5] [3, 1, 7, 2, 5] (-100)
        (by norm_num [List.chain'_cons]) (by decide)).1,
    ((claim4_max_per_sublist_amended [0, 2, 2, 5] [3, 1, 7, 2, 5] (-100)
        (by norm_num [List.chain'_cons]) (by decide)).2 1 (by decide)).2 (by decide)⟩

end k2
